import Mathlib

/-!
Shallow embedding of `src/renitest2.js` (a landing-page enhancement script):
the rate-limiter utilities (`debounce`, `throttle`), the scroll-animation
observer (`AnimationManager`), the pointer-effect handlers, the typewriter
state machine (`typeWriter`), and the orchestration root (`ReniLandingPage`).

Timing model for the rate limiters: time is a discrete instant counter (`ℕ`).
A timer scheduled at instant `t` with delay `w` is considered to fire at
instant `t + w`, but strictly after all wrapper invocations at instants
`≤ t + w`: a callback queued by `setTimeout` never preempts code running at
the instant of its expiry, and in particular never runs synchronously between
two invocations at the same instant. Hence, when an invocation at instant
`u` finds a timer with expiry `ft` pending, the timer has already fired
exactly when `ft < u`.
-/

/-- An invocation of a rate-limited wrapper: the instant it occurs and the
arguments it passes. -/
structure RLEvent (α : Type) where
  time : ℕ
  args : α
deriving DecidableEq, Repr

/-- One invocation of the function returned by `debounce(func, wait, immediate)`
(src/renitest2.js:424-436).  State: the pending timer (expiry instant and the
`args` captured by the pending `later` closure, `none` when `timeout` is null)
and the log of real calls to `func` (instant, arguments).  If the pending
timer expired before this invocation (`ft < e.time`) it has already run
`later`: `timeout = null` and, when `immediate` is falsy, `func(fa)` was
called at instant `ft`.  Then `callNow = immediate && !timeout` fires `func`
synchronously exactly when `immediate` is truthy and no timer was pending,
and the invocation always reschedules the timer to `e.time + wait` with its
own arguments (`clearTimeout` then `setTimeout`). -/
def debStep {α : Type} (wait : ℕ) (immediate : Bool)
    (s : Option (ℕ × α) × List (ℕ × α)) (e : RLEvent α) :
    Option (ℕ × α) × List (ℕ × α) :=
  match s with
  | (some (ft, fa), log) =>
    if ft < e.time then
      (some (e.time + wait, e.args),
        if immediate then log ++ [(e.time, e.args)] else log ++ [(ft, fa)])
    else
      (some (e.time + wait, e.args), log)
  | (none, log) =>
    (some (e.time + wait, e.args),
      if immediate then log ++ [(e.time, e.args)] else log)

/-- After the last invocation nothing cancels the pending timer, so it fires:
`later` calls `func` with the captured arguments unless `immediate` is truthy. -/
def debFinalize {α : Type} (immediate : Bool) :
    Option (ℕ × α) × List (ℕ × α) → List (ℕ × α)
  | (none, log) => log
  | (some (ft, fa), log) => if immediate then log else log ++ [(ft, fa)]

/-- The real calls to `func` produced by the wrapper returned by
`debounce(func, wait, immediate)` over a sequence of invocations
(initially `timeout` is undefined, i.e. no timer pending). -/
def debounceRun {α : Type} (wait : ℕ) (immediate : Bool)
    (events : List (RLEvent α)) : List (ℕ × α) :=
  debFinalize immediate (events.foldl (debStep wait immediate) (none, []))

/-- Selector for the trailing-edge (`immediate` falsy) debounce: among the
invocations, keep those followed by a gap of more than `wait` (the pending
timer survives until the next invocation only if that invocation comes no
later than the expiry instant), plus the last invocation. -/
def quietSel {α : Type} (wait : ℕ) : List (RLEvent α) → List (RLEvent α)
  | [] => []
  | [e] => [e]
  | e :: e' :: rest =>
    if e.time + wait < e'.time then e :: quietSel wait (e' :: rest)
    else quietSel wait (e' :: rest)

/-- Helper mirroring the accumulator of `debounceRun` with `immediate` falsy:
the fires produced from a state with a pending timer `(ft, fa)`. -/
def quietFrom {α : Type} (wait : ℕ) (ft : ℕ) (fa : α) :
    List (RLEvent α) → List (ℕ × α)
  | [] => [(ft, fa)]
  | e :: rest =>
    if ft < e.time then (ft, fa) :: quietFrom wait (e.time + wait) e.args rest
    else quietFrom wait (e.time + wait) e.args rest

/-- Helper selector for the leading-edge (`immediate` truthy) debounce: given
the expiry instant `ft` of the currently pending timer, keep exactly the
invocations that arrive strictly after the timer (then pending anew) expires. -/
def leadFrom {α : Type} (wait : ℕ) (ft : ℕ) :
    List (RLEvent α) → List (RLEvent α)
  | [] => []
  | e :: rest =>
    if ft < e.time then e :: leadFrom wait (e.time + wait) rest
    else leadFrom wait (e.time + wait) rest

/-- Selector for the leading-edge debounce: the first invocation always fires,
and each later invocation fires iff it arrives strictly more than `wait` after
the previous invocation. -/
def leadSel {α : Type} (wait : ℕ) : List (RLEvent α) → List (RLEvent α)
  | [] => []
  | e :: rest => e :: leadFrom wait (e.time + wait) rest

/-- One invocation of the function returned by `throttle(func, limit)`
(src/renitest2.js:439-450).  State: the expiry instant of the pending
`inThrottle` reset timer (`none` when `inThrottle` is falsy and no timer
pending) and the log of real calls.  A pending reset with expiry `ce` has
already run (`inThrottle = false`) exactly when `ce < e.time`; if
`inThrottle` is falsy the invocation calls `func` immediately, sets
`inThrottle` and schedules its reset `limit` later; otherwise it is dropped. -/
def throtStep {α : Type} (limit : ℕ) (s : Option ℕ × List (ℕ × α))
    (e : RLEvent α) : Option ℕ × List (ℕ × α) :=
  match s with
  | (cd, log) =>
    match (match cd with
           | some ce => if ce < e.time then none else some ce
           | none => none : Option ℕ) with
    | none => (some (e.time + limit), log ++ [(e.time, e.args)])
    | some ce => (some ce, log)

/-- The real calls to `func` produced by the wrapper returned by
`throttle(func, limit)` over a sequence of invocations. -/
def throttleRun {α : Type} (limit : ℕ) (events : List (RLEvent α)) :
    List (ℕ × α) :=
  (events.foldl (throtStep limit) (none, [])).2

/-- Helper selector for throttle: given the expiry instant `ce` of the
current cooldown, keep the invocations that arrive strictly after it,
each restarting the cooldown. -/
def throtSelFrom {α : Type} (limit : ℕ) (ce : ℕ) :
    List (RLEvent α) → List (RLEvent α)
  | [] => []
  | e :: rest =>
    if ce < e.time then e :: throtSelFrom limit (e.time + limit) rest
    else throtSelFrom limit ce rest

/-- Selector for throttle: the first invocation always fires; afterwards an
invocation fires iff it arrives strictly after the cooldown started by the
previous fire expires. -/
def throtSel {α : Type} (limit : ℕ) : List (RLEvent α) → List (RLEvent α)
  | [] => []
  | e :: rest => e :: throtSelFrom limit (e.time + limit) rest

/-- One record delivered to the `IntersectionObserver` callback of
`AnimationManager.setupObserver` (src/renitest2.js:147-155): the target
element (as an opaque id) and its `isIntersecting` flag. -/
structure ObsEntry where
  target : ℕ
  isIntersecting : Bool
deriving DecidableEq, Repr

/-- The state of `AnimationManager` relevant to activation:
`animated` is `this.animatedElements` (a `Set`), `observed` is the set of
elements currently observed by `this.observer`, and `log` records each call
to `this.animateElement` in order. -/
structure AMObsState where
  animated : Finset ℕ
  observed : Finset ℕ
  log : List ℕ

/-- Processing of one entry by the observer callback in
`AnimationManager.setupObserver`: if `entry.isIntersecting` and the target is
not in `animatedElements`, call `animateElement`, add the target to
`animatedElements`, and `unobserve` it; otherwise do nothing. -/
def amCallbackStep (s : AMObsState) (e : ObsEntry) : AMObsState :=
  if e.isIntersecting ∧ e.target ∉ s.animated then
    { animated := insert e.target s.animated
      observed := s.observed.erase e.target
      log := s.log ++ [e.target] }
  else s

/-- One observer callback: `entries.forEach` over the batch. -/
def amCallback (s : AMObsState) (entries : List ObsEntry) : AMObsState :=
  entries.foldl amCallbackStep s

/-- Any sequence of observer callback batches. -/
def amRun (s : AMObsState) (batches : List (List ObsEntry)) : AMObsState :=
  batches.foldl amCallback s

/-- The state right after `observeElements`: nothing animated yet, all
queried elements observed, no activation performed. -/
def amInitState (targets : Finset ℕ) : AMObsState :=
  { animated := ∅, observed := targets, log := [] }

/-- A style-affecting action performed by `AnimationManager.init` and its
callees on a target element: `hide` is the pre-activation presentation
(`opacity 0`, `translateY(30px)`, set by `observeElements`), `observe` is an
`IntersectionObserver.observe` call, and `activate` is the visible-state
presentation (`opacity 1`, `translateY(0)`). -/
inductive AMAction where
  | hide (t : ℕ)
  | observe (t : ℕ)
  | activate (t : ℕ)
deriving DecidableEq, Repr

/-- `AnimationManager.init` (src/renitest2.js:124-138): if the user prefers
reduced motion, return immediately (no observer, no style writes); else if
`IntersectionObserver` is unavailable, `addFallbackAnimations` applies the
visible-state presentation to every target (no observer); else construct the
observer (first component `true`) and, per target in order, set the hidden
pre-activation presentation and observe it. -/
def amInitRun (reducedMotion hasIntersectionObserver : Bool)
    (targets : List ℕ) : Bool × List AMAction :=
  if reducedMotion then (false, [])
  else if !hasIntersectionObserver then
    (false, targets.map AMAction.activate)
  else
    (true, targets.flatMap fun t => [AMAction.hide t, AMAction.observe t])

/-- The `mousemove` handler attached to each `.hero-button`
(src/renitest2.js:546-558): computes the pointer offset from the button
centre and applies `translate(x*0.1, y*0.1) scale(1.05)`.  The result is the
applied translation pair, `none` meaning no style write.  The global
reduced-motion preference is passed in so the spec claim about it can be
stated; the source handler never consults it. -/
def heroButtonMousemove (reducedMotion : Bool)
    (clientX clientY left top width height : ℚ) : Option (ℚ × ℚ) :=
  let x := clientX - left - width / 2
  let y := clientY - top - height / 2
  some (x * (0.1 : ℚ), y * (0.1 : ℚ))

/-- The document-level `mousemove` parallax handler
(src/renitest2.js:561-570): normalises the pointer position by the viewport
size and applies `translate((x-0.5)*20, (y-0.5)*20)` to `.hero-content`.
The reduced-motion flag is never consulted by the source handler. -/
def parallaxMousemove (reducedMotion : Bool)
    (clientX clientY innerWidth innerHeight : ℚ) : Option (ℚ × ℚ) :=
  let x := clientX / innerWidth
  let y := clientY / innerHeight
  some ((x - (0.5 : ℚ)) * 20, (y - (0.5 : ℚ)) * 20)

/-- The `mousemove` 3D-tilt handler attached to each `.service-item`
(src/renitest2.js:664-682): computes `rotateX = (y - centerY)/20` and
`rotateY = (centerX - x)/20` from the pointer offset inside the item.
The reduced-motion flag is never consulted by the source handler. -/
def serviceTiltMousemove (reducedMotion : Bool)
    (clientX clientY left top width height : ℚ) : Option (ℚ × ℚ) :=
  let x := clientX - left
  let y := clientY - top
  let centerX := width / 2
  let centerY := height / 2
  some ((y - centerY) / 20, (centerX - x) / 20)

/-- The `mouseenter` hover handler of `ContactManager.addHoverEffects`
(src/renitest2.js:232-236): applies `translateY(-2px)` only when the user
does not prefer reduced motion — the one pointer handler that consults the
flag. -/
def btnMouseenter (reducedMotion : Bool) : Option ℚ :=
  if reducedMotion then none else some (-2)

/-- The typewriter state (src/renitest2.js:511-513): `subtitleIndex`,
`charIndex` and `isDeleting`. -/
structure TWState where
  index : ℕ
  cursor : ℕ
  deleting : Bool
deriving DecidableEq, Repr

/-- The initial typewriter state: `subtitleIndex = 0`, `charIndex = 0`,
`isDeleting = false`. -/
def twInit : TWState := { index := 0, cursor := 0, deleting := false }

/-- One scheduled step of `typeWriter` (src/renitest2.js:515-543), state
update only.  Typing: `charIndex++`, and if it now equals the current text's
length, switch to deleting.  Deleting: `charIndex--`, and if it now equals 0
(i.e. it was 1 — `charIndex` is never negative on any state reachable from
`twInit`; from the unreachable `charIndex = 0` deleting state the source
would loop forever on a negative `charIndex` rendering the empty string,
matched here by looping at cursor 0), switch to typing and advance
`subtitleIndex = (subtitleIndex + 1) % subtitles.length`. -/
def twNext (subs : List (List Char)) (s : TWState) : TWState :=
  let current := subs.getD s.index []
  if s.deleting then
    if s.cursor = 1 then
      { index := (s.index + 1) % subs.length, cursor := 0, deleting := false }
    else { index := s.index, cursor := s.cursor - 1, deleting := true }
  else
    if s.cursor + 1 = current.length then
      { index := s.index, cursor := s.cursor + 1, deleting := true }
    else { index := s.index, cursor := s.cursor + 1, deleting := false }

/-- The text rendered into `.subtitle` by one step of `typeWriter` fired in
state `s`: `currentText.substring(0, charIndex ± 1)` (deleting/typing),
modelled as a character-list prefix. -/
def twRender (subs : List (List Char)) (s : TWState) : List Char :=
  let current := subs.getD s.index []
  if s.deleting then current.take (s.cursor - 1) else current.take (s.cursor + 1)

/-- The module keys assigned in `ReniLandingPage.init`
(src/renitest2.js:369-374), in construction order. -/
def moduleNames : List String :=
  ["errorManager", "performanceMonitor", "smoothScrollManager",
   "animationManager", "contactManager", "accessibilityManager"]

/-- The state of a `ReniLandingPage` instance: the keys present in
`this.modules`, the `isInitialized` flag, plus a log of every module
constructor invocation and of every error logged by the `catch` in `init`. -/
structure Page where
  modules : List String
  isInitialized : Bool
  constructionLog : List String
  errorLog : List String
deriving DecidableEq, Repr

/-- The state built by the `ReniLandingPage` constructor:
`this.modules = {}`, `this.isInitialized = false`. -/
def page0 : Page :=
  { modules := [], isInitialized := false, constructionLog := [], errorLog := [] }

/-- Assignment `this.modules.k = new K()`: adds the key if absent (a later
assignment to an existing key overwrites the instance, which the
construction log records separately). -/
def addKey (m : List String) (k : String) : List String :=
  if k ∈ m then m else m ++ [k]

/-- The body of the single `try` block of `ReniLandingPage.init`
(src/renitest2.js:359-386), one module at a time: construct the module (the
parameter `throws` says which constructors raise) and assign it; the first
raising constructor jumps to the `catch`, which logs the failure — every
later module is skipped and `isInitialized` is left unchanged.  If the whole
list completes, set `isInitialized = true`. -/
def reniInitGo (throws : String → Bool) : List String → Page → Page
  | [], s => { s with isInitialized := true }
  | n :: rest, s =>
    if throws n then
      { s with errorLog := s.errorLog ++ ["Failed to initialize Reni Landing Page"] }
    else
      reniInitGo throws rest
        { s with modules := addKey s.modules n
                 constructionLog := s.constructionLog ++ [n] }

/-- `ReniLandingPage.init` as a state transformer.  Note the source never
reads `this.isInitialized`: there is no guard at the top of `init`. -/
def reniInit (throws : String → Bool) (s : Page) : Page :=
  reniInitGo throws moduleNames s

/-- A concrete fault assignment: only the `AnimationManager` constructor
throws. -/
def throwsAnim : String → Bool := fun n => n == "animationManager"

/-! ## Rate limiter theorems -/

theorem debFoldFalse {α : Type} (wait : ℕ) (events : List (RLEvent α)) :
    ∀ (ft : ℕ) (fa : α) (log : List (ℕ × α)),
      debFinalize false (events.foldl (debStep wait false) (some (ft, fa), log))
        = log ++ quietFrom wait ft fa events := by
  induction events with
  | nil => intro ft fa log; simp [debFinalize, quietFrom]
  | cons e rest ih =>
    intro ft fa log
    simp only [List.foldl_cons, debStep, quietFrom]
    by_cases h : ft < e.time
    · simp only [if_pos h, Bool.false_eq_true, if_false]
      rw [ih]
      simp
    · simp only [if_neg h]
      rw [ih]

theorem quietFromEq {α : Type} (wait : ℕ) (rest : List (RLEvent α)) :
    ∀ e : RLEvent α,
      quietFrom wait (e.time + wait) e.args rest
        = (quietSel wait (e :: rest)).map (fun x => (x.time + wait, x.args)) := by
  induction rest with
  | nil => intro e; simp [quietFrom, quietSel]
  | cons e' rest' ih =>
    intro e
    simp only [quietFrom, quietSel]
    by_cases h : e.time + wait < e'.time
    · simp only [if_pos h, List.map_cons]
      rw [ih e']
    · simp only [if_neg h]
      rw [ih e']

theorem debounceRunFalseEq {α : Type} (wait : ℕ) (events : List (RLEvent α)) :
    debounceRun wait false events
      = (quietSel wait events).map (fun e => (e.time + wait, e.args)) := by
  cases events with
  | nil => rfl
  | cons e rest =>
    show debFinalize false ((e :: rest).foldl (debStep wait false) (none, [])) = _
    simp only [List.foldl_cons]
    have h1 : debStep wait false (none, ([] : List (ℕ × α))) e
        = (some (e.time + wait, e.args), []) := rfl
    rw [h1, debFoldFalse, quietFromEq]
    simp

theorem throtFold {α : Type} (limit : ℕ) (events : List (RLEvent α)) :
    ∀ (ce : ℕ) (log : List (ℕ × α)),
      (events.foldl (throtStep limit) (some ce, log)).2
        = log ++ (throtSelFrom limit ce events).map (fun e => (e.time, e.args)) := by
  induction events with
  | nil => intro ce log; simp [throtSelFrom]
  | cons e rest ih =>
    intro ce log
    simp only [List.foldl_cons, throtStep, throtSelFrom]
    by_cases h : ce < e.time
    · simp only [if_pos h, List.map_cons]
      rw [ih]
      simp
    · simp only [if_neg h]
      rw [ih]

theorem throttleRunEq {α : Type} (limit : ℕ) (events : List (RLEvent α)) :
    throttleRun limit events
      = (throtSel limit events).map (fun e => (e.time, e.args)) := by
  cases events with
  | nil => rfl
  | cons e rest =>
    show ((e :: rest).foldl (throtStep limit) (none, [])).2 = _
    simp only [List.foldl_cons]
    have h1 : throtStep limit ((none : Option ℕ), ([] : List (ℕ × α))) e
        = (some (e.time + limit), [(e.time, e.args)]) := rfl
    rw [h1, throtFold]
    simp [throtSel]

theorem throtSelFromBound {α : Type} (limit : ℕ) (events : List (RLEvent α)) :
    ∀ ce : ℕ,
      (∀ x ∈ throtSelFrom limit ce events, ce < x.time) ∧
      List.Chain' (fun a b : RLEvent α => a.time + limit ≤ b.time)
        (throtSelFrom limit ce events) := by
  induction events with
  | nil => intro ce; simp [throtSelFrom]
  | cons e rest ih =>
    intro ce
    simp only [throtSelFrom]
    by_cases h : ce < e.time
    · simp only [if_pos h]
      refine ⟨?_, ?_⟩
      · intro x hx
        rcases List.mem_cons.mp hx with hx | hx
        · subst hx; exact h
        · have := (ih (e.time + limit)).1 x hx
          omega
      · rw [List.chain'_cons']
        refine ⟨?_, (ih (e.time + limit)).2⟩
        intro y hy
        have := (ih (e.time + limit)).1 y (List.mem_of_mem_head? hy)
        omega
    · simp only [if_neg h]
      exact ih ce

theorem throttleRunChain {α : Type} (limit : ℕ) (events : List (RLEvent α)) :
    List.Chain' (fun p q : ℕ × α => p.1 + limit ≤ q.1)
      (throttleRun limit events) := by
  rw [throttleRunEq, List.chain'_map]
  cases events with
  | nil => simp [throtSel]
  | cons e rest =>
    simp only [throtSel]
    rw [List.chain'_cons']
    refine ⟨?_, (throtSelFromBound limit rest (e.time + limit)).2⟩
    intro y hy
    have := (throtSelFromBound limit rest (e.time + limit)).1 y
      (List.mem_of_mem_head? hy)
    omega

theorem quietSelZero {α : Type} (events : List (RLEvent α))
    (h : events.Chain' (fun a b => a.time < b.time)) :
    quietSel 0 events = events := by
  induction events with
  | nil => rfl
  | cons e rest ih =>
    cases rest with
    | nil => rfl
    | cons e' rest' =>
      rw [List.chain'_cons] at h
      simp only [quietSel]
      rw [if_pos (by omega : e.time + 0 < e'.time)]
      rw [ih h.2]

theorem throtSelFromZero {α : Type} (events : List (RLEvent α)) :
    ∀ ce : ℕ, events.Chain' (fun a b => a.time < b.time) →
      (∀ x ∈ events.head?, ce < x.time) → throtSelFrom 0 ce events = events := by
  induction events with
  | nil => intro ce _ _; rfl
  | cons e rest ih =>
    intro ce hc hh
    have he : ce < e.time := hh e rfl
    simp only [throtSelFrom, if_pos he]
    rw [List.chain'_cons'] at hc
    rw [ih (e.time + 0) hc.2]
    intro y hy
    have := hc.1 y hy
    omega

/-- C2: for the debounce wrapper (`immediate` falsy) with window `wait > 0`,
every invocation cancels any pending scheduled call and schedules a new one
`wait` later, and the underlying callback fires exactly once per quiet
period: the real calls are exactly those invocations followed by no further
invocation within the window (plus the final one), each firing at its
invocation instant plus `wait` and with that (last) invocation's arguments. -/
theorem debounce_quiet {α : Type} (wait : ℕ) (hw : 0 < wait)
    (events : List (RLEvent α)) :
    debounceRun wait false events
      = (quietSel wait events).map (fun e => (e.time + wait, e.args)) :=
  debounceRunFalseEq wait events

theorem debounce_quiet_witness :
    0 < 100 ∧ debounceRun 100 false
      [(⟨0, 1⟩ : RLEvent ℕ), ⟨10, 2⟩, ⟨300, 3⟩] = [(110, 2), (400, 3)] :=
  ⟨by decide,
    (debounce_quiet 100 (by decide) [⟨0, 1⟩, ⟨10, 2⟩, ⟨300, 3⟩]).trans (by decide)⟩

/-- C3: for the throttle wrapper with window `limit > 0`, the first
invocation fires immediately and starts a cooldown; invocations during the
cooldown are dropped without being queued; the first invocation after the
cooldown expires fires immediately (at its own instant, with its own
arguments) and restarts the cooldown — and consecutive real calls are at
least `limit` apart. -/
theorem throttle_spec {α : Type} (limit : ℕ) (hl : 0 < limit)
    (events : List (RLEvent α)) :
    throttleRun limit events
        = (throtSel limit events).map (fun e => (e.time, e.args)) ∧
      List.Chain' (fun p q : ℕ × α => p.1 + limit ≤ q.1)
        (throttleRun limit events) :=
  ⟨throttleRunEq limit events, throttleRunChain limit events⟩

theorem throttle_spec_witness :
    0 < 100 ∧ throttleRun 100
      [(⟨0, 1⟩ : RLEvent ℕ), ⟨50, 2⟩, ⟨101, 3⟩] = [(0, 1), (101, 3)] :=
  ⟨by decide,
    ((throttle_spec 100 (by decide) [⟨0, 1⟩, ⟨50, 2⟩, ⟨101, 3⟩]).1).trans
      (by decide)⟩

/-- C4 is false on the code: with window 0 neither wrapper is a synchronous
pass-through.  Two invocations at the same instant (the same event-loop
task): the debounce wrapper drops the first (its 0-delay timer is cancelled
by `clearTimeout` before it can run, since a `setTimeout` callback never runs
synchronously inside the task that scheduled it) and the throttle wrapper
drops the second (`inThrottle` has not yet been reset at the same instant);
so an invocation is dropped in both modes. -/
theorem rateLimiter_zero_window_counterexample :
    throttleRun 0 [(⟨0, 1⟩ : RLEvent ℕ), ⟨0, 2⟩] ≠ [(0, 1), (0, 2)] ∧
    debounceRun 0 false [(⟨0, 1⟩ : RLEvent ℕ), ⟨0, 2⟩] ≠ [(0, 1), (0, 2)] ∧
    throttleRun 0 [(⟨0, 1⟩ : RLEvent ℕ), ⟨0, 2⟩] = [(0, 1)] ∧
    debounceRun 0 false [(⟨0, 1⟩ : RLEvent ℕ), ⟨0, 2⟩] = [(0, 2)] := by
  decide

/-- C4 (amended): with window 0, invocations at pairwise distinct instants
are all passed through — throttle calls the callback synchronously at each
invocation instant, and debounce's 0-delay timer fires before the next
instant, so every invocation produces exactly one real call at its own
instant with its own arguments.  Invocations sharing an instant are not
passed through: throttle keeps only the first of them and debounce coalesces
them into one deferred call with the last arguments (the counterexample). -/
theorem rateLimiter_zero_window_amended {α : Type} (events : List (RLEvent α))
    (h : events.Chain' (fun a b => a.time < b.time)) :
    throttleRun 0 events = events.map (fun e => (e.time, e.args)) ∧
    debounceRun 0 false events = events.map (fun e => (e.time, e.args)) := by
  constructor
  · rw [throttleRunEq]
    cases events with
    | nil => rfl
    | cons e rest =>
      simp only [throtSel]
      rw [List.chain'_cons'] at h
      rw [throtSelFromZero rest (e.time + 0) h.2]
      intro y hy
      have := h.1 y hy
      omega
  · rw [debounceRunFalseEq, quietSelZero events h]
    simp

theorem rateLimiter_zero_window_amended_witness :
    List.Chain' (fun a b : RLEvent ℕ => a.time < b.time) [⟨0, 1⟩, ⟨1, 2⟩] ∧
    throttleRun 0 [(⟨0, 1⟩ : RLEvent ℕ), ⟨1, 2⟩] = [(0, 1), (1, 2)] ∧
    debounceRun 0 false [(⟨0, 1⟩ : RLEvent ℕ), ⟨1, 2⟩] = [(0, 1), (1, 2)] := by
  have hc : List.Chain' (fun a b : RLEvent ℕ => a.time < b.time) [⟨0, 1⟩, ⟨1, 2⟩] := by
    rw [List.chain'_cons]
    exact ⟨by decide, List.chain'_singleton _⟩
  have h := rateLimiter_zero_window_amended [(⟨0, 1⟩ : RLEvent ℕ), ⟨1, 2⟩] hc
  exact ⟨hc, h.1.trans (by decide), h.2.trans (by decide)⟩

theorem debLeadFold {α : Type} (wait : ℕ) (events : List (RLEvent α)) :
    ∀ (ft : ℕ) (fa : α) (log : List (ℕ × α)),
      debFinalize true (events.foldl (debStep wait true) (some (ft, fa), log))
        = log ++ (leadFrom wait ft events).map (fun e => (e.time, e.args)) := by
  induction events with
  | nil => intro ft fa log; simp [debFinalize, leadFrom]
  | cons e rest ih =>
    intro ft fa log
    simp only [List.foldl_cons, debStep, leadFrom]
    by_cases h : ft < e.time
    · simp only [if_pos h, if_true, List.map_cons]
      rw [ih]
      simp
    · simp only [if_neg h]
      rw [ih]

/-- C10: for `debounce(func, wait, immediate)` with `immediate = true`, an
invocation with no pending timer calls `func` synchronously at its own
instant with its own arguments, the trailing timeout never calls `func`, and
invocations made while a timer is pending only reset the timer: the real
calls are exactly the invocations arriving strictly more than `wait` after
the previous invocation (plus the first), on the leading edge. -/
theorem debounce_leading {α : Type} (wait : ℕ) (events : List (RLEvent α)) :
    debounceRun wait true events
      = (leadSel wait events).map (fun e => (e.time, e.args)) := by
  cases events with
  | nil => rfl
  | cons e rest =>
    show debFinalize true ((e :: rest).foldl (debStep wait true) (none, [])) = _
    simp only [List.foldl_cons]
    have h1 : debStep wait true (none, ([] : List (ℕ × α))) e
        = (some (e.time + wait, e.args), [(e.time, e.args)]) := rfl
    rw [h1, debLeadFold]
    simp [leadSel]

/-! ## AnimationManager theorems -/

/-- The invariant maintained by the observer callback of
`AnimationManager.setupObserver`: `animateElement` has been called at most
once per element, exactly the elements in `animatedElements` have been
animated, and an animated element is no longer observed. -/
def amInv (s : AMObsState) : Prop :=
  ∀ t : ℕ, s.log.count t ≤ 1 ∧ (t ∈ s.animated ↔ t ∈ s.log) ∧
    (t ∈ s.animated → t ∉ s.observed)

theorem amCallbackStep_inv (s : AMObsState) (e : ObsEntry) (h : amInv s) :
    amInv (amCallbackStep s e) := by
  unfold amCallbackStep
  split
  case isTrue hc =>
    intro t
    obtain ⟨hcnt, hmem, hobs⟩ := h t
    refine ⟨?_, ?_, ?_⟩
    · simp only [List.count_append]
      rcases eq_or_ne t e.target with ht | ht
      · have h0 : List.count t s.log = 0 := by
          rw [List.count_eq_zero]
          intro hl
          exact hc.2 (ht ▸ hmem.mpr hl)
        have h1 : List.count t [e.target] = 1 := by
          rw [ht]
          simp
        omega
      · have h1 : List.count t [e.target] = 0 := by
          rw [List.count_eq_zero]
          simp [ht]
        omega
    · simp only [Finset.mem_insert, List.mem_append, List.mem_singleton]
      constructor
      · rintro (ht | ha)
        · exact Or.inr ht
        · exact Or.inl (hmem.mp ha)
      · rintro (hl | ht)
        · exact Or.inr (hmem.mpr hl)
        · exact Or.inl ht
    · intro ha
      rcases Finset.mem_insert.mp ha with ht | ha
      · exact ht ▸ Finset.not_mem_erase e.target s.observed
      · intro hmem'
        exact hobs ha (Finset.mem_of_mem_erase hmem')
  case isFalse => exact h

theorem amCallback_inv (entries : List ObsEntry) :
    ∀ s : AMObsState, amInv s → amInv (amCallback s entries) := by
  induction entries with
  | nil => intro s h; exact h
  | cons e rest ih =>
    intro s h
    exact ih (amCallbackStep s e) (amCallbackStep_inv s e h)

theorem amRun_inv (batches : List (List ObsEntry)) :
    ∀ s : AMObsState, amInv s → amInv (amRun s batches) := by
  induction batches with
  | nil => intro s h; exact h
  | cons b rest ih =>
    intro s h
    exact ih (amCallback s b) (amCallback_inv b s h)

/-- C1: for every element registered with the `AnimationManager` observer,
`animateElement` is invoked at most once across any sequence of intersection
callback batches, however the `isIntersecting` flag flips; and once an
element has been activated it is no longer observed. -/
theorem animationManager_once (targets : Finset ℕ)
    (batches : List (List ObsEntry)) (t : ℕ) :
    (amRun (amInitState targets) batches).log.count t ≤ 1 ∧
    (t ∈ (amRun (amInitState targets) batches).log →
      t ∉ (amRun (amInitState targets) batches).observed) := by
  have hinit : amInv (amInitState targets) := by
    intro t
    refine ⟨by simp [amInitState], ?_, ?_⟩
    · simp [amInitState]
    · simp [amInitState]
  have h := amRun_inv batches (amInitState targets) hinit t
  exact ⟨h.1, fun hl => h.2.2 (h.2.1.mpr hl)⟩

/-- C6 is false on the code: when the user prefers reduced motion,
`AnimationManager.init` returns at once — it constructs no observer and
performs zero observation calls, but it also does not activate any
registered target (no visible-state presentation is applied; the
immediate-activation fallback `addFallbackAnimations` runs only on the
missing-`IntersectionObserver` branch). -/
theorem animationManager_reduced_counterexample :
    AMAction.activate 0 ∉ (amInitRun true true [0]).2 ∧
    amInitRun true true [0] = (false, []) := by decide

/-- C6 (amended): under reduced motion `AnimationManager.init` performs no
action at all — no observer is constructed, no observation call is made, no
target is hidden, and no target is activated (targets keep their default
presentation); only when viewport observation is unavailable (and reduced
motion is not requested) are all registered targets immediately given the
visible-state presentation, with zero observation calls and no observer. -/
theorem animationManager_reduced_amended (obsAvail : Bool) (targets : List ℕ) :
    amInitRun true obsAvail targets = (false, []) ∧
    amInitRun false false targets = (false, targets.map AMAction.activate) ∧
    (∀ t : ℕ, AMAction.observe t ∉ (amInitRun false false targets).2) ∧
    (∀ t ∈ targets, AMAction.activate t ∈ (amInitRun false false targets).2) := by
  have h2 : (amInitRun false false targets).2 = targets.map AMAction.activate := rfl
  refine ⟨rfl, rfl, ?_, ?_⟩
  · intro t ht
    rw [h2, List.mem_map] at ht
    obtain ⟨x, _, hx⟩ := ht
    exact AMAction.noConfusion hx
  · intro t ht
    rw [h2]
    exact List.mem_map_of_mem AMAction.activate ht

theorem animationManager_reduced_amended_witness :
    amInitRun true true [0, 1] = (false, []) ∧
    AMAction.activate 0 ∈ (amInitRun false false [0, 1]).2 :=
  ⟨(animationManager_reduced_amended true [0, 1]).1,
    (animationManager_reduced_amended true [0, 1]).2.2.2 0 (by decide)⟩

/-! ## Pointer effect theorems -/

/-- C7 is false on the code: with the reduced-motion preference set, the
magnetic hero-button handler, the document parallax handler and the
service-item 3D-tilt handler all still compute and apply their transforms —
none of those three handlers consults the flag. -/
theorem pointer_reduced_counterexample :
    heroButtonMousemove true 10 10 0 0 4 4 ≠ none ∧
    parallaxMousemove true 10 10 100 100 ≠ none ∧
    serviceTiltMousemove true 10 10 0 0 4 4 ≠ none := by
  refine ⟨?_, ?_, ?_⟩ <;> simp [heroButtonMousemove, parallaxMousemove,
    serviceTiltMousemove]

/-- C7 (amended): the magnetic-button, parallax and 3D-tilt handlers are
insensitive to the reduced-motion flag and always apply a transform; the only
pointer handler that consults the flag is the contact-button `mouseenter`
hover of `ContactManager.addHoverEffects`, which suppresses its
`translateY(-2px)` under reduced motion. -/
theorem pointer_reduced_amended (r : Bool) (cx cy l t w h iw ih : ℚ) :
    heroButtonMousemove r cx cy l t w h = heroButtonMousemove false cx cy l t w h ∧
    parallaxMousemove r cx cy iw ih = parallaxMousemove false cx cy iw ih ∧
    serviceTiltMousemove r cx cy l t w h = serviceTiltMousemove false cx cy l t w h ∧
    (heroButtonMousemove r cx cy l t w h).isSome = true ∧
    (parallaxMousemove r cx cy iw ih).isSome = true ∧
    (serviceTiltMousemove r cx cy l t w h).isSome = true ∧
    btnMouseenter true = none ∧ btnMouseenter false = some (-2) :=
  ⟨rfl, rfl, rfl, rfl, rfl, rfl, rfl, rfl⟩

/-! ## Typewriter theorems -/

theorem twLenPos (subs : List (List Char)) (hall : ∀ x ∈ subs, x ≠ [])
    (i : ℕ) (hi : i < subs.length) : 0 < (subs.getD i []).length := by
  rw [List.getD_eq_getElem subs [] hi]
  exact List.length_pos.mpr (hall _ (List.getElem_mem hi))

theorem twNext_typing (subs : List (List Char)) (i c : ℕ) :
    twNext subs ⟨i, c, false⟩
      = (if c + 1 = (subs.getD i []).length then (⟨i, c + 1, true⟩ : TWState)
         else ⟨i, c + 1, false⟩) := rfl

theorem twNext_deleting (subs : List (List Char)) (i c : ℕ) :
    twNext subs ⟨i, c, true⟩
      = (if c = 1 then (⟨(i + 1) % subs.length, 0, false⟩ : TWState)
         else ⟨i, c - 1, true⟩) := rfl

theorem twTyping (subs : List (List Char)) (i : ℕ) (d k : ℕ) (hd : 0 < d)
    (hk : k + d = (subs.getD i []).length) :
    (twNext subs)^[d] ⟨i, k, false⟩
      = ⟨i, (subs.getD i []).length, true⟩ := by
  induction d generalizing k with
  | zero => omega
  | succ d ih =>
    rw [Function.iterate_succ_apply, twNext_typing]
    by_cases hL : k + 1 = (subs.getD i []).length
    · have hd0 : d = 0 := by omega
      subst hd0
      rw [if_pos hL, Function.iterate_zero_apply, hL]
    · rw [if_neg hL]
      exact ih (k + 1) (by omega) (by omega)

theorem twDeleting (subs : List (List Char)) (i : ℕ) (k : ℕ) (hk : 0 < k) :
    (twNext subs)^[k] ⟨i, k, true⟩
      = ⟨(i + 1) % subs.length, 0, false⟩ := by
  induction k with
  | zero => omega
  | succ k ih =>
    rw [Function.iterate_succ_apply, twNext_deleting]
    by_cases hk0 : k = 0
    · subst hk0
      rw [if_pos rfl, Function.iterate_zero_apply]
    · rw [if_neg (by omega : ¬ k + 1 = 1)]
      have hc : k + 1 - 1 = k := by omega
      rw [hc]
      exact ih (by omega)

theorem twRound (subs : List (List Char)) (hall : ∀ x ∈ subs, x ≠ [])
    (i : ℕ) (hi : i < subs.length) :
    (twNext subs)^[2 * (subs.getD i []).length] ⟨i, 0, false⟩
      = ⟨(i + 1) % subs.length, 0, false⟩ := by
  have hL : 0 < (subs.getD i []).length := twLenPos subs hall i hi
  have h2 : 2 * (subs.getD i []).length
      = (subs.getD i []).length + (subs.getD i []).length := by omega
  rw [h2, Function.iterate_add_apply]
  rw [twTyping subs i (subs.getD i []).length 0 hL (by omega)]
  exact twDeleting subs i (subs.getD i []).length hL

theorem twRounds (subs : List (List Char)) (hne : subs ≠ [])
    (hall : ∀ x ∈ subs, x ≠ []) (j : ℕ) (hj : j ≤ subs.length) :
    (twNext subs)^[2 * ((subs.take j).map List.length).sum] twInit
      = ⟨j % subs.length, 0, false⟩ := by
  have hN : 0 < subs.length := List.length_pos.mpr hne
  induction j with
  | zero =>
    simp only [List.take_zero, List.map_nil, List.sum_nil, Nat.mul_zero,
      Function.iterate_zero_apply]
    rw [Nat.zero_mod]
    rfl
  | succ j ih =>
    have hjlt : j < subs.length := by omega
    have hsum : ((subs.take (j + 1)).map List.length).sum
        = ((subs.take j).map List.length).sum + (subs.getD j []).length := by
      rw [List.take_succ, List.getElem?_eq_getElem hjlt, List.map_append,
        List.sum_append, List.getD_eq_getElem subs [] hjlt]
      simp
    rw [hsum]
    have h2 : 2 * (((subs.take j).map List.length).sum + (subs.getD j []).length)
        = 2 * (subs.getD j []).length + 2 * ((subs.take j).map List.length).sum := by
      omega
    rw [h2, Function.iterate_add_apply]
    rw [ih (by omega)]
    rw [Nat.mod_eq_of_lt hjlt]
    exact twRound subs hall j hjlt

/-- The invariant satisfied by every typewriter state reachable from
`twInit` when every sequence is non-empty: the index is in range, a
deleting state has cursor between 1 and the current length, and a typing
state has cursor strictly below the current length. -/
def twInv (subs : List (List Char)) (s : TWState) : Prop :=
  s.index < subs.length ∧
  (s.deleting = true →
    1 ≤ s.cursor ∧ s.cursor ≤ (subs.getD s.index []).length) ∧
  (s.deleting = false → s.cursor < (subs.getD s.index []).length)

theorem twInv_step (subs : List (List Char)) (hne : subs ≠ [])
    (hall : ∀ x ∈ subs, x ≠ []) (s : TWState) (h : twInv subs s) :
    twInv subs (twNext subs s) := by
  have hN : 0 < subs.length := List.length_pos.mpr hne
  obtain ⟨i, c, del⟩ := s
  obtain ⟨hidx, hdel, htyp⟩ := h
  have hidx' : i < subs.length := hidx
  cases del with
  | false =>
    have hc : c < (subs.getD i []).length := htyp rfl
    rw [twNext_typing]
    by_cases hL : c + 1 = (subs.getD i []).length
    · rw [if_pos hL]
      refine ⟨hidx', fun _ => ⟨?_, ?_⟩, fun hf => ?_⟩
      · show 1 ≤ c + 1
        omega
      · show c + 1 ≤ (subs.getD i []).length
        omega
      · exact absurd hf (by simp)
    · rw [if_neg hL]
      refine ⟨hidx', fun hf => absurd hf (by simp), fun _ => ?_⟩
      show c + 1 < (subs.getD i []).length
      omega
  | true =>
    have hc : 1 ≤ c ∧ c ≤ (subs.getD i []).length := hdel rfl
    rw [twNext_deleting]
    by_cases h1c : c = 1
    · rw [if_pos h1c]
      refine ⟨Nat.mod_lt _ hN, fun hf => absurd hf (by simp), fun _ => ?_⟩
      exact twLenPos subs hall _ (Nat.mod_lt _ hN)
    · rw [if_neg h1c]
      refine ⟨hidx', fun _ => ⟨?_, ?_⟩, fun hf => absurd hf (by simp)⟩
      · show 1 ≤ c - 1
        omega
      · show c - 1 ≤ (subs.getD i []).length
        omega

theorem twInv_iter (subs : List (List Char)) (hne : subs ≠ [])
    (hall : ∀ x ∈ subs, x ≠ []) (n : ℕ) :
    twInv subs ((twNext subs)^[n] twInit) := by
  have hN : 0 < subs.length := List.length_pos.mpr hne
  induction n with
  | zero =>
    refine ⟨hN, fun hf => absurd hf (by simp [twInit]), fun _ => ?_⟩
    exact twLenPos subs hall 0 hN
  | succ n ih =>
    rw [Function.iterate_succ_apply']
    exact twInv_step subs hne hall _ ih

theorem twRender_eq (subs : List (List Char)) (s : TWState) :
    twRender subs s
      = (subs.getD (twNext subs s).index []).take ((twNext subs s).cursor) := by
  obtain ⟨i, c, del⟩ := s
  cases del with
  | false =>
    rw [twNext_typing]
    by_cases hL : c + 1 = (subs.getD i []).length
    · rw [if_pos hL]
      rfl
    · rw [if_neg hL]
      rfl
  | true =>
    rw [twNext_deleting]
    by_cases h1c : c = 1
    · rw [if_pos h1c]
      show (subs.getD i []).take (c - 1) = _
      rw [h1c]
      simp
    · rw [if_neg h1c]
      rfl

/-- C5 is false as stated: over the non-empty sequence list `[""]` (one
empty sequence), the very first step already drives the cursor above the
current sequence's length — the typing branch increments `charIndex` to 1
and can never reach `charIndex === currentText.length` when that length is
0 — so the claimed bound `0 ≤ cursor ≤ length(sequence[i])` fails and no
full round ever completes. -/
theorem typewriter_counterexample :
    ((twNext [([] : List Char)])^[1] twInit).cursor = 1 ∧
    ¬ (((twNext [([] : List Char)])^[1] twInit).cursor
        ≤ ([([] : List Char)].getD
            ((twNext [([] : List Char)])^[1] twInit).index []).length) := by
  decide

/-- C5 (amended): over a non-empty list of sequences *each of which is
non-empty*, from `(i, 0, typing)` a full round — typing all characters then
deleting them all, `2·length(sequence[i])` scheduled steps — returns the
cursor to 0 and advances the index by 1 mod N; every state reachable from
the initial state keeps `cursor ≤ length(sequence[index])`; every step
renders the prefix of the current sequence of length equal to the new
cursor; and after N full rounds (one per sequence) the machine is back in
its initial state `(0, 0, typing)`. -/
theorem typewriter_claim (subs : List (List Char)) (hne : subs ≠ [])
    (hall : ∀ x ∈ subs, x ≠ []) :
    (∀ i : ℕ, i < subs.length →
      (twNext subs)^[2 * (subs.getD i []).length] ⟨i, 0, false⟩
        = ⟨(i + 1) % subs.length, 0, false⟩) ∧
    (∀ n : ℕ, ((twNext subs)^[n] twInit).cursor
        ≤ (subs.getD ((twNext subs)^[n] twInit).index []).length) ∧
    (∀ s : TWState, twRender subs s
        = (subs.getD (twNext subs s).index []).take ((twNext subs s).cursor)) ∧
    (twNext subs)^[2 * ((subs.map List.length).sum)] twInit = twInit := by
  refine ⟨fun i hi => twRound subs hall i hi, ?_, fun s => twRender_eq subs s, ?_⟩
  · intro n
    have h := twInv_iter subs hne hall n
    cases hdel : ((twNext subs)^[n] twInit).deleting with
    | false =>
      have := h.2.2 hdel
      omega
    | true => exact (h.2.1 hdel).2
  · have h := twRounds subs hne hall subs.length le_rfl
    rw [List.take_length, Nat.mod_self] at h
    exact h

theorem typewriter_claim_witness :
    (twNext [['a', 'b'], ['c', 'd']])^[2 * (([['a', 'b'], ['c', 'd']].map
      List.length).sum)] twInit = twInit :=
  (typewriter_claim [['a', 'b'], ['c', 'd']] (by decide) (by decide)).2.2.2

/-! ## Orchestration root theorems -/

theorem reniInitGo_ok (names : List String) :
    ∀ s : Page, reniInitGo (fun _ => false) names s
      = { modules := names.foldl addKey s.modules, isInitialized := true,
          constructionLog := s.constructionLog ++ names,
          errorLog := s.errorLog } := by
  induction names with
  | nil => intro s; simp [reniInitGo]
  | cons n rest ih =>
    intro s
    show reniInitGo (fun _ => false) rest
        { s with modules := addKey s.modules n,
                 constructionLog := s.constructionLog ++ [n] } = _
    rw [ih]
    simp

/-- C8 is false on the code: `init()` never reads `isInitialized`, so a
second call is not a no-op — it constructs and registers every module a
second time (the construction log grows by another full pass). -/
theorem reniInit_counterexample :
    reniInit (fun _ => false) (reniInit (fun _ => false) page0)
      ≠ reniInit (fun _ => false) page0 ∧
    (reniInit (fun _ => false) (reniInit (fun _ => false) page0)).constructionLog
      = moduleNames ++ moduleNames := by
  decide

/-- C8 (amended): `init()` has no `isInitialized` guard: the flag is
written but never consulted (the run is insensitive to its incoming value),
and each call re-runs the construction of all six modules, appending a full
pass to the construction log; only the `modules` key set and the flag end up
the same after a repeated call. -/
theorem reniInit_amended (s : Page) (b : Bool) :
    (reniInit (fun _ => false) (reniInit (fun _ => false) s)).constructionLog
      = s.constructionLog ++ moduleNames ++ moduleNames ∧
    (reniInit (fun _ => false) s).isInitialized = true ∧
    reniInit (fun _ => false) { s with isInitialized := b }
      = reniInit (fun _ => false) s := by
  refine ⟨?_, ?_, ?_⟩
  · rw [reniInit, reniInitGo_ok, reniInit, reniInitGo_ok]
  · rw [reniInit, reniInitGo_ok]
  · rw [reniInit, reniInitGo_ok, reniInit, reniInitGo_ok]

theorem reniInitGo_fault (throws : String → Bool) (names : List String) :
    ∀ s : Page, reniInitGo throws names s
      = (if names.any throws then
          { modules := (names.takeWhile (fun n => !throws n)).foldl addKey s.modules,
            isInitialized := s.isInitialized,
            constructionLog :=
              s.constructionLog ++ names.takeWhile (fun n => !throws n),
            errorLog :=
              s.errorLog ++ ["Failed to initialize Reni Landing Page"] }
        else
          { modules := (names.takeWhile (fun n => !throws n)).foldl addKey s.modules,
            isInitialized := true,
            constructionLog :=
              s.constructionLog ++ names.takeWhile (fun n => !throws n),
            errorLog := s.errorLog }) := by
  induction names with
  | nil => intro s; simp [reniInitGo, List.takeWhile]
  | cons n rest ih =>
    intro s
    by_cases hn : throws n
    · have h1 : reniInitGo throws (n :: rest) s
          = { s with errorLog :=
              s.errorLog ++ ["Failed to initialize Reni Landing Page"] } := by
        simp [reniInitGo, hn]
      rw [h1]
      have h2 : (n :: rest).any throws = true := by simp [hn]
      have h3 : (n :: rest).takeWhile (fun n => !throws n) = [] := by
        simp [List.takeWhile, hn]
      rw [h2, h3]
      simp
    · have h1 : reniInitGo throws (n :: rest) s
          = reniInitGo throws rest
              { s with modules := addKey s.modules n,
                       constructionLog := s.constructionLog ++ [n] } := by
        simp [reniInitGo, hn]
      rw [h1, ih]
      have h2 : (n :: rest).any throws = rest.any throws := by simp [hn]
      have h3 : (n :: rest).takeWhile (fun n => !throws n)
          = n :: rest.takeWhile (fun n => !throws n) := by
        simp [List.takeWhile, hn]
      rw [h2, h3]
      by_cases ha : rest.any throws <;> simp [ha, List.append_assoc]

/-- C9 is false on the code: one single `try` wraps all six module
constructions, so a constructor that throws aborts the construction of
every later sibling.  With only the `AnimationManager` constructor
throwing, the non-throwing siblings `contactManager` and
`accessibilityManager` are never constructed (while the modules before the
fault are), even though the fault is caught and logged at the `init`
boundary. -/
theorem reniInit_fault_counterexample :
    "contactManager" ∉ (reniInit throwsAnim page0).modules ∧
    "accessibilityManager" ∉ (reniInit throwsAnim page0).modules ∧
    throwsAnim "contactManager" = false ∧
    "errorManager" ∈ (reniInit throwsAnim page0).modules ∧
    (reniInit throwsAnim page0).errorLog
      = ["Failed to initialize Reni Landing Page"] := by
  decide

/-- C9 (amended): a fault thrown by any module constructor is caught and
logged at the `init` boundary (never propagated), but it aborts the rest of
the initialization: exactly the modules strictly before the first throwing
constructor are constructed, `isInitialized` is left unchanged when any
constructor throws, and it is set only when all six constructions
complete. -/
theorem reniInit_fault_amended (throws : String → Bool) (s : Page) :
    (reniInit throws s).constructionLog
      = s.constructionLog ++ moduleNames.takeWhile (fun n => !throws n) ∧
    (reniInit throws s).errorLog
      = (if moduleNames.any throws then
          s.errorLog ++ ["Failed to initialize Reni Landing Page"]
         else s.errorLog) ∧
    (reniInit throws s).isInitialized
      = (if moduleNames.any throws then s.isInitialized else true) := by
  rw [reniInit, reniInitGo_fault]
  by_cases ha : moduleNames.any throws <;> simp [ha]
